import Mathlib

/-!
Shallow embedding of the chunking and LLM-orchestration pipeline of the
legal-processor backend (src/processor.py, src/llm_client.py, src/main.py,
src/cli.py).  Python strings are modelled as `List Char`; Python's
`str.strip` / `str.split("\n\n")` / `"\n\n".join` are embedded as `pstrip`,
`splitPar` and `joinNl` below.  Fallible gateway calls are modelled with
`Except`.
-/

namespace LegalProc

/-- Convert a Lean string literal to the `List Char` representation used for
Python strings throughout this development. -/
def s2l (s : String) : List Char := s.toList

/-- The ASCII whitespace characters stripped by Python's `str.strip()`. -/
def isPySpace (c : Char) : Bool :=
  c == ' ' || c == '\t' || c == '\n' || c == '\r' || c == '\x0b' || c == '\x0c'

/-- Python `s.strip()`: drop leading and trailing whitespace. -/
def pstrip (s : List Char) : List Char :=
  ((s.dropWhile isPySpace).reverse.dropWhile isPySpace).reverse

/-- The blank-line paragraph separator `"\n\n"`. -/
def nl2 : List Char := ['\n', '\n']

/-- Python `text.split("\n\n")`: greedy leftmost split on the two-newline
separator, keeping empty pieces, as in `str.split` with an explicit
separator. -/
def splitPar : List Char → List (List Char)
  | [] => [[]]
  | [c] => [[c]]
  | c :: d :: rest =>
    if c = '\n' ∧ d = '\n' then
      [] :: splitPar rest
    else
      match splitPar (d :: rest) with
      | [] => [[c]]
      | p :: ps => (c :: p) :: ps

/-- Whether a char list contains two consecutive newlines (a paragraph
separator). -/
def hasNl2 : List Char → Bool
  | c :: d :: rest => (c = '\n' && d = '\n') || hasNl2 (d :: rest)
  | _ => false

/-- The paragraph list computed at the top of `DocumentProcessor._chunk_text`:
`[p.strip() for p in text.split("\n\n") if p.strip()]`. -/
def paragraphsOf (t : List Char) : List (List Char) :=
  ((splitPar t).map pstrip).filter (fun p => !p.isEmpty)

/-- One section dict produced by `DocumentProcessor` (fields `text`,
`heading`, `number`, `section_number`). -/
structure DocSection where
  text : List Char
  heading : List Char
  number : Option Nat
  section_number : Nat
deriving DecidableEq

/-- The heading string `f"Document Section {n}"`. -/
def headingFor (n : Nat) : List Char := s2l ("Document Section " ++ toString n)

/-- Python `"\n\n".join(parts)`. -/
def joinNl : List (List Char) → List Char
  | [] => []
  | [x] => x
  | x :: y :: r => x ++ nl2 ++ joinNl (y :: r)

/-- The running buffer of the `_chunk_text` loop: each accumulated paragraph
is followed by the `"\n\n"` appended by the Python code. -/
def joinBuf (ps : List (List Char)) : List Char :=
  (ps.map (fun p => p ++ nl2)).flatten

/-- The paragraph loop of `DocumentProcessor._chunk_text`: `maxLen` is
`self.max_section_length`, `current` is `current_text` and `count` is
`section_count`. -/
def chunkLoop (maxLen : Nat) : List (List Char) → List Char → Nat → List DocSection
  | [], current, count =>
    if pstrip current ≠ [] then
      [⟨pstrip current, headingFor (count + 1), none, count⟩]
    else []
  | para :: rest, current, count =>
    if maxLen < current.length + para.length ∧ current ≠ [] then
      ⟨pstrip current, headingFor (count + 1), none, count⟩ ::
        chunkLoop maxLen rest (para ++ nl2) (count + 1)
    else
      chunkLoop maxLen rest (current ++ para ++ nl2) count

/-- `DocumentProcessor._chunk_text(text)` (called on already-stripped text). -/
def chunk_text (maxLen : Nat) (text : List Char) : List DocSection :=
  chunkLoop maxLen (paragraphsOf text) [] 0

/-- `DocumentProcessor.create_sections(content)` on `content["text"] = text`
with `self.max_section_length = maxLen`. -/
def create_sections (text : List Char) (maxLen : Nat) : List DocSection :=
  let t := pstrip text
  if t = [] then []
  else if t.length ≤ maxLen then
    [⟨t, s2l "Full Document", none, 0⟩]
  else chunk_text maxLen t

/-- `DocumentProcessor.create_plain_english_prompt(section)`. -/
def create_plain_english_prompt (s : DocSection) : List Char :=
  s2l "Convert the following legal text into plain English that anyone can understand. \nKeep all important information and meaning, but use simple words and clear sentences.\n\nSection: "
    ++ s.heading
    ++ s2l "\n\nLegal Text:\n"
    ++ s.text
    ++ s2l "\n\nPlain English Version:"

/-- `DocumentProcessor.create_summary_prompt(section)`. -/
def create_summary_prompt (s : DocSection) : List Char :=
  s2l "Summarize the following legal text into clear, concise bullet points. \nPreserve all legal meaning and important details.\n\nSection: "
    ++ s.heading
    ++ s2l "\n\nLegal Text:\n"
    ++ s.text
    ++ s2l "\n\nBullet-Point Summary:"

/-- A prefix test on char lists (used by the substring test `hasSub` and by
stub gateways). -/
def leadsWith : List Char → List Char → Bool
  | [], _ => true
  | _ :: _, [] => false
  | a :: as, b :: bs => a == b && leadsWith as bs

/-- Python's substring containment `pat in s`. -/
def hasSub (pat : List Char) : List Char → Bool
  | [] => leadsWith pat []
  | c :: rest => leadsWith pat (c :: rest) || hasSub pat rest

/-- The validation-result dict of `DocumentProcessor.validate_output`. -/
structure ValidationResult where
  is_valid : Bool
  warnings : List (List Char)
  errors : List (List Char)
deriving DecidableEq

/-- `DocumentProcessor.validate_output(original_sections, processed_output)`. -/
def validate_output (original_sections : List DocSection)
    (processed_output : List Char) : ValidationResult :=
  let r0 : ValidationResult := ⟨true, [], []⟩
  let r1 :=
    if hasSub (s2l "[TRUNCATED]") processed_output
        || hasSub (s2l "[INCOMPLETE]") processed_output then
      { r0 with warnings := r0.warnings ++ [s2l "Output may be truncated"] }
    else r0
  if processed_output.length < 50 then
    { r1 with errors := r1.errors ++ [s2l "Output suspiciously short"],
              is_valid := false }
  else r1

/-- `LLMClient.estimate_tokens(text)`: `len(text) // 4`. -/
def estimate_tokens (text : List Char) : Nat := text.length / 4

/-- Errors with which a gateway call can fail: an opaque underlying transport
error (numbered, as raised by `_call_novita`) or the terminal
`Exception("Max retries exceeded")` of `_retry_llm_call`. -/
inductive LLMError where
  | underlying (e : Nat)
  | maxRetriesExceeded
deriving DecidableEq

instance {ε α : Type} [DecidableEq ε] [DecidableEq α] : DecidableEq (Except ε α) :=
  fun a b =>
    match a, b with
    | .ok x, .ok y => decidable_of_iff (x = y) (by simp)
    | .error x, .error y => decidable_of_iff (x = y) (by simp)
    | .ok _, .error _ => .isFalse (by simp)
    | .error _, .ok _ => .isFalse (by simp)

/-- The `for attempt in range(max_retries)` loop body of
`LLMClient._retry_llm_call`, as recursion over the list of remaining loop
indices.  The gateway behaviour `att` gives the outcome of the n-th
invocation of `_call_novita` (n = 0 is the primary attempt in `call_llm`,
n = i+1 is retry number i), with opaque underlying errors numbered by `Nat`.
Returns the call's outcome together with the list of back-off sleeps
performed, in order. -/
def retryLoop (att : Nat → Except Nat (List Char)) (baseDelay maxRetries : Nat) :
    List Nat → Except LLMError (List Char) × List Nat
  | [] => (.error .maxRetriesExceeded, [])
  | attempt :: rest =>
    let delay := baseDelay * 2 ^ attempt
    match att (attempt + 1) with
    | .ok r => (.ok r, [delay])
    | .error e =>
      if attempt = maxRetries - 1 then
        (.error (.underlying e), [delay])
      else
        let r2 := retryLoop att baseDelay maxRetries rest
        (r2.1, delay :: r2.2)

/-- `LLMClient._retry_llm_call` with `self.max_retries = maxRetries` and
`self.base_delay = baseDelay`. -/
def retry_llm_call (att : Nat → Except Nat (List Char)) (baseDelay maxRetries : Nat) :
    Except LLMError (List Char) × List Nat :=
  retryLoop att baseDelay maxRetries (List.range maxRetries)

/-- `LLMClient.call_llm(prompt, ...)`: the primary `_call_novita` attempt,
falling back to `_retry_llm_call` on failure.  Returns the outcome and the
sleeps performed. -/
def call_llm (att : Nat → Except Nat (List Char)) (maxRetries baseDelay : Nat) :
    Except LLMError (List Char) × List Nat :=
  match att 0 with
  | .ok r => (.ok r, [])
  | .error _ => retry_llm_call att baseDelay maxRetries

/-- One gateway call as issued by the orchestrator's section loop:
`call_llm_async(prompt)` with `model` left at its `None` default (resolved to
the configured default model inside `call_llm`) and `max_tokens` at its
default of 1000. -/
structure GatewayCall where
  prompt : List Char
  model : Option (List Char)
  max_tokens : Nat
deriving DecidableEq

/-- The per-section loop shared by `process_documents_async` (src/main.py)
and `CLIProcessor.process_single_document` (src/cli.py), with an
always-succeeding gateway `gw`: returns the plain-English accumulator, the
summary accumulator, and the trace of gateway calls in issue order. -/
def runSections (gw : List Char → List Char) :
    List DocSection → List (List Char) × List (List Char) × List GatewayCall
  | [] => ([], [], [])
  | s :: rest =>
    let pp := create_plain_english_prompt s
    let pr := gw pp
    let sp := create_summary_prompt s
    let sr := gw sp
    let rec0 := runSections gw rest
    (pr :: rec0.1, sr :: rec0.2.1, ⟨pp, none, 1000⟩ :: ⟨sp, none, 1000⟩ :: rec0.2.2)

/-- The orchestration for one document (sections, two passes, join with
`"\n\n"`), with an always-succeeding gateway: returns
`(plain_english, summary, calls)`. -/
def processDocument (gw : List Char → List Char) (text : List Char) (maxLen : Nat) :
    List Char × List Char × List GatewayCall :=
  let secs := create_sections text maxLen
  let r := runSections gw secs
  (joinNl r.1, joinNl r.2.1, r.2.2)

/-- The per-section loop with a fallible gateway (`gw prompt` is the outcome
of the whole retried `call_llm` for that prompt): the first failing call
aborts the document, as the raised exception propagates out of the section
loop in `process_documents_async`. -/
def runSectionsE (gw : List Char → Except Nat (List Char)) :
    List DocSection → Except Nat (List (List Char) × List (List Char))
  | [] => .ok ([], [])
  | s :: rest =>
    match gw (create_plain_english_prompt s) with
    | .error e => .error e
    | .ok pr =>
      match gw (create_summary_prompt s) with
      | .error e => .error e
      | .ok sr =>
        match runSectionsE gw rest with
        | .error e => .error e
        | .ok acc => .ok (pr :: acc.1, sr :: acc.2)

/-- Processing of one document in `process_documents_async`: on success the
two joined outputs (which are then written); on a gateway failure the error
propagates and nothing is written for this document. -/
def processDocE (gw : List Char → Except Nat (List Char)) (text : List Char)
    (maxLen : Nat) : Except Nat (List Char × List Char) :=
  match runSectionsE gw (create_sections text maxLen) with
  | .error e => .error e
  | .ok acc => .ok (joinNl acc.1, joinNl acc.2)

/-- The per-file loop of `process_documents_async`: each document is
processed inside its own try/except, so a failure marks that file as errored
(`none`, nothing written to `processed_files`) and the loop continues with
the next file. -/
def processBatch (gw : List Char → Except Nat (List Char)) (maxLen : Nat) :
    List (List Char) → List (Option (List Char × List Char))
  | [] => []
  | d :: rest =>
    (match processDocE gw d maxLen with
      | .ok out => some out
      | .error _ => none) :: processBatch gw maxLen rest

/-- A stub gateway returning `"[PLAIN]"` for every plain-English prompt and
`"[SUMMARY]"` for every summary prompt (the two prompt templates start with
distinct words). -/
def stubGw (p : List Char) : List Char :=
  if leadsWith (s2l "Convert") p then s2l "[PLAIN]" else s2l "[SUMMARY]"

/-- The end-to-end scenario text of the spec. -/
def scenTxt : List Char := s2l "Para one.\n\nPara two.\n\nPara three."

/-- A clean paragraph: nonempty, first and last characters not whitespace.
This is the shape of every entry of `paragraphsOf` (each is `p.strip()` for
some nonempty piece `p`). -/
def cleanB (p : List Char) : Bool :=
  match p.head?, p.getLast? with
  | some c, some d => !isPySpace c && !isPySpace d
  | _, _ => false

/-! Basic facts about whitespace, `pstrip` and clean paragraphs. -/

theorem isPySpace_nl : isPySpace '\n' = true := rfl

theorem ne_nl_of_not_space {c : Char} (h : isPySpace c = false) : c ≠ '\n' := by
  intro hc; subst hc; simp [isPySpace] at h

theorem pstrip_eq_rdrop (s : List Char) :
    pstrip s = List.rdropWhile isPySpace (List.dropWhile isPySpace s) := rfl

theorem pstrip_nil : pstrip [] = [] := rfl

theorem pstrip_length_le (s : List Char) : (pstrip s).length ≤ s.length := by
  rw [pstrip_eq_rdrop]
  exact le_trans (List.rdropWhile_prefix _ _).length_le (List.dropWhile_suffix _).length_le

theorem cleanB_iff {p : List Char} :
    cleanB p = true ↔
      ∃ c d, p.head? = some c ∧ p.getLast? = some d ∧
        isPySpace c = false ∧ isPySpace d = false := by
  unfold cleanB
  constructor
  · intro h
    cases hh : p.head? with
    | none => rw [hh] at h; simp at h
    | some c =>
      cases hl : p.getLast? with
      | none => rw [hh, hl] at h; simp at h
      | some d =>
        rw [hh, hl] at h
        simp only [Bool.and_eq_true, Bool.not_eq_true'] at h
        exact ⟨c, d, rfl, rfl, h.1, h.2⟩
  · rintro ⟨c, d, hh, hl, hc, hd⟩
    rw [hh, hl]
    simp [hc, hd]

theorem cleanB_ne_nil {p : List Char} (h : cleanB p = true) : p ≠ [] := by
  rcases cleanB_iff.mp h with ⟨c, _, hh, _, _, _⟩
  intro he; subst he; simp at hh

theorem dropWhile_eq_self_of_head {s : List Char} {c : Char}
    (hh : s.head? = some c) (hc : isPySpace c = false) :
    List.dropWhile isPySpace s = s := by
  cases s with
  | nil => simp at hh
  | cons a t =>
    have : a = c := by simpa using hh
    subst this
    simp [List.dropWhile_cons, hc]

theorem rdropWhile_eq_self_of_getLast {s : List Char} {d : Char}
    (hl : s.getLast? = some d) (hd : isPySpace d = false) :
    List.rdropWhile isPySpace s = s := by
  have hne : s ≠ [] := by intro he; subst he; simp at hl
  rw [List.rdropWhile_eq_self_iff]
  intro _
  rw [List.getLast?_eq_getLast s hne] at hl
  have : s.getLast hne = d := by simpa using hl
  rw [this]
  simp [hd]

theorem pstrip_eq_self {p : List Char} (h : cleanB p = true) : pstrip p = p := by
  rcases cleanB_iff.mp h with ⟨c, d, hh, hl, hc, hd⟩
  rw [pstrip_eq_rdrop, dropWhile_eq_self_of_head hh hc,
    rdropWhile_eq_self_of_getLast hl hd]

theorem head?_dropWhile_not_space {s : List Char} {c : Char}
    (h : (List.dropWhile isPySpace s).head? = some c) : isPySpace c = false := by
  induction s with
  | nil => simp at h
  | cons a t ih =>
    rw [List.dropWhile_cons] at h
    by_cases ha : isPySpace a = true
    · rw [if_pos ha] at h; exact ih h
    · rw [if_neg ha] at h
      have : a = c := by simpa using h
      subst this
      simpa using ha

theorem getLast?_rdropWhile_not_space {s : List Char} {d : Char}
    (h : (List.rdropWhile isPySpace s).getLast? = some d) : isPySpace d = false := by
  unfold List.rdropWhile at h
  rw [List.getLast?_reverse] at h
  exact head?_dropWhile_not_space h

theorem head?_pstrip_of_ne_nil {s : List Char} (h : pstrip s ≠ []) :
    (pstrip s).head? = (List.dropWhile isPySpace s).head? := by
  have hpre : pstrip s <+: List.dropWhile isPySpace s := by
    rw [pstrip_eq_rdrop]; exact List.rdropWhile_prefix _ _
  obtain ⟨t, ht⟩ := hpre
  rw [← ht]
  cases hp : pstrip s with
  | nil => exact absurd hp h
  | cons a b => rfl

theorem cleanB_pstrip {s : List Char} (h : pstrip s ≠ []) : cleanB (pstrip s) = true := by
  rcases List.exists_cons_of_ne_nil h with ⟨c, t, hct⟩
  have hh : (pstrip s).head? = some c := by rw [hct]; rfl
  have hc : isPySpace c = false := by
    rw [head?_pstrip_of_ne_nil h] at hh
    exact head?_dropWhile_not_space hh
  have hlast : ∃ d, (pstrip s).getLast? = some d := by
    rw [hct]
    exact ⟨(c :: t).getLast (by simp), List.getLast?_eq_getLast _ _⟩
  rcases hlast with ⟨d, hd⟩
  have hdns : isPySpace d = false := by
    rw [pstrip_eq_rdrop] at hd
    exact getLast?_rdropWhile_not_space hd
  exact cleanB_iff.mpr ⟨c, d, hh, hd, hc, hdns⟩

/-! Facts about the paragraph separator search `hasNl2` and the splitter
`splitPar`. -/

theorem hasNl2_nil : hasNl2 [] = false := rfl

theorem hasNl2_single (c : Char) : hasNl2 [c] = false := rfl

theorem hasNl2_cons_cons (c d : Char) (l : List Char) :
    hasNl2 (c :: d :: l) = ((c = '\n' && d = '\n') || hasNl2 (d :: l)) := rfl

theorem hasNl2_cons_false {c : Char} {l : List Char} (h : hasNl2 (c :: l) = false) :
    hasNl2 l = false := by
  cases l with
  | nil => rfl
  | cons d t =>
    rw [hasNl2_cons_cons, Bool.or_eq_false_iff] at h
    exact h.2

theorem hasNl2_append_right {a b : List Char} (h : hasNl2 (a ++ b) = false) :
    hasNl2 b = false := by
  induction a with
  | nil => exact h
  | cons x a' ih =>
    exact ih (hasNl2_cons_false (by simpa using h))

theorem hasNl2_append_left {a b : List Char} (h : hasNl2 (a ++ b) = false) :
    hasNl2 a = false := by
  induction a with
  | nil => rfl
  | cons x a' ih =>
    cases a' with
    | nil => rfl
    | cons y a'' =>
      rw [List.cons_append, List.cons_append, hasNl2_cons_cons, Bool.or_eq_false_iff] at h
      rw [hasNl2_cons_cons, Bool.or_eq_false_iff]
      exact ⟨h.1, ih (by simpa using h.2)⟩

theorem hasNl2_pstrip {s : List Char} (h : hasNl2 s = false) :
    hasNl2 (pstrip s) = false := by
  have h1 : hasNl2 (List.dropWhile isPySpace s) = false := by
    obtain ⟨u, hu⟩ := List.dropWhile_suffix (l := s) isPySpace
    rw [← hu] at h
    exact hasNl2_append_right h
  obtain ⟨t, ht⟩ := List.rdropWhile_prefix isPySpace (List.dropWhile isPySpace s)
  rw [pstrip_eq_rdrop]
  rw [← ht] at h1
  exact hasNl2_append_left h1

theorem splitPar_ne_nil (l : List Char) : splitPar l ≠ [] := by
  match l with
  | [] => simp [splitPar]
  | [c] => simp [splitPar]
  | c :: d :: rest =>
    rw [splitPar]
    by_cases h : c = '\n' ∧ d = '\n'
    · rw [if_pos h]; simp
    · rw [if_neg h]
      cases hs : splitPar (d :: rest) with
      | nil => simp
      | cons p ps => simp

theorem splitPar_first_head {l p : List Char} {ps : List (List Char)}
    (h : splitPar l = p :: ps) :
    p.head? = l.head? ∨ (p = [] ∧ l.head? = some '\n') := by
  match l with
  | [] =>
    rw [show splitPar [] = [[]] from rfl] at h
    obtain ⟨h1, _⟩ := List.cons_eq_cons.mp h
    left; rw [← h1]
  | [c] =>
    rw [show splitPar [c] = [[c]] from rfl] at h
    obtain ⟨h1, _⟩ := List.cons_eq_cons.mp h
    left; rw [← h1]
  | c :: d :: rest =>
    rw [splitPar] at h
    by_cases hc : c = '\n' ∧ d = '\n'
    · rw [if_pos hc] at h
      obtain ⟨h1, _⟩ := List.cons_eq_cons.mp h
      right
      refine ⟨h1.symm, ?_⟩
      rw [hc.1]; rfl
    · rw [if_neg hc] at h
      cases hs : splitPar (d :: rest) with
      | nil => exact absurd hs (splitPar_ne_nil _)
      | cons q qs =>
        rw [hs] at h
        obtain ⟨h1, _⟩ := List.cons_eq_cons.mp h
        left; rw [← h1]; rfl

theorem splitPar_noNl2 : (l : List Char) → ∀ q ∈ splitPar l, hasNl2 q = false
  | [] => by
    intro q hq
    rw [show splitPar [] = [[]] from rfl] at hq
    have := List.mem_singleton.mp hq
    subst this; rfl
  | [c] => by
    intro q hq
    rw [show splitPar [c] = [[c]] from rfl] at hq
    have := List.mem_singleton.mp hq
    subst this; rfl
  | c :: d :: rest => by
    rw [splitPar]
    by_cases hc : c = '\n' ∧ d = '\n'
    · rw [if_pos hc]
      intro q hq
      rcases List.mem_cons.mp hq with h | h
      · rw [h]; rfl
      · exact splitPar_noNl2 rest q h
    · rw [if_neg hc]
      cases hs : splitPar (d :: rest) with
      | nil => exact absurd hs (splitPar_ne_nil _)
      | cons p ps =>
        intro q hq
        rcases List.mem_cons.mp hq with h | h
        · subst h
          cases p with
          | nil => rfl
          | cons e p' =>
            have hpd : e = d := by
              rcases splitPar_first_head hs with hh | hh
              · simpa using hh
              · exact absurd hh.1 (by simp)
            subst hpd
            rw [hasNl2_cons_cons, Bool.or_eq_false_iff]
            constructor
            · by_cases h1 : c = '\n'
              · by_cases h2 : e = '\n'
                · exact absurd ⟨h1, h2⟩ hc
                · simp [h2]
              · simp [h1]
            · exact splitPar_noNl2 (e :: rest) (e :: p') (by rw [hs]; exact List.mem_cons_self _ _)
        · exact splitPar_noNl2 (d :: rest) q (by rw [hs]; exact List.mem_cons_of_mem _ h)

/-! The splitter is a left inverse of the joiner on clean paragraph lists. -/

theorem splitPar_of_noNl2 : (p : List Char) → hasNl2 p = false → splitPar p = [p]
  | [], _ => rfl
  | [_], _ => rfl
  | c :: d :: p', h => by
    rw [splitPar]
    have hc : ¬(c = '\n' ∧ d = '\n') := by
      intro hcd
      rw [hasNl2_cons_cons, hcd.1, hcd.2] at h
      simp at h
    rw [if_neg hc, splitPar_of_noNl2 (d :: p') (hasNl2_cons_false h)]

theorem splitPar_append_nl2 :
    (p : List Char) → (t : List Char) → hasNl2 p = false → p.getLast? ≠ some '\n' →
      splitPar (p ++ '\n' :: '\n' :: t) = p :: splitPar t
  | [], t, _, _ => by
    rw [List.nil_append, splitPar, if_pos ⟨rfl, rfl⟩]
  | [c], t, _, hl => by
    have hc : c ≠ '\n' := by
      intro hc; exact hl (by rw [hc]; rfl)
    rw [List.cons_append, List.nil_append, splitPar, if_neg (by intro hcd; exact hc hcd.1),
      splitPar, if_pos ⟨rfl, rfl⟩]
  | c :: d :: p', t, h, hl => by
    have hstep : splitPar ((d :: p') ++ '\n' :: '\n' :: t) = (d :: p') :: splitPar t :=
      splitPar_append_nl2 (d :: p') t (hasNl2_cons_false h)
        (by rw [← List.getLast?_cons_cons (a := c)]; exact hl)
    have hc : ¬(c = '\n' ∧ d = '\n') := by
      intro hcd
      rw [hasNl2_cons_cons, hcd.1, hcd.2] at h
      simp at h
    rw [List.cons_append, List.cons_append, splitPar, if_neg hc]
    rw [List.cons_append] at hstep
    rw [hstep]

theorem joinNl_cons_cons (x y : List Char) (r : List (List Char)) :
    joinNl (x :: y :: r) = x ++ nl2 ++ joinNl (y :: r) := rfl

theorem joinNl_ne_nil {ps : List (List Char)} (hne : ps ≠ [])
    (hc : ∀ p ∈ ps, p ≠ []) : joinNl ps ≠ [] := by
  match ps with
  | [x] => exact hc x (List.mem_singleton_self x)
  | x :: y :: r =>
    rw [joinNl_cons_cons]
    have : x ≠ [] := hc x (List.mem_cons_self _ _)
    simp [this]

theorem head?_joinNl (x : List Char) (r : List (List Char)) (hx : x ≠ []) :
    (joinNl (x :: r)).head? = x.head? := by
  cases r with
  | nil => rfl
  | cons y r' =>
    rw [joinNl_cons_cons]
    rcases List.exists_cons_of_ne_nil hx with ⟨a, b, rfl⟩
    rfl

theorem getLast?_joinNl : (x : List Char) → (r : List (List Char)) →
    (∀ p ∈ x :: r, p ≠ []) →
    ∃ z, z ∈ x :: r ∧ (joinNl (x :: r)).getLast? = z.getLast?
  | x, [], _ => ⟨x, by simp, rfl⟩
  | x, y :: r', h => by
    obtain ⟨z, hzmem, hzjoin⟩ :=
      getLast?_joinNl y r' (fun p hp => h p (List.mem_cons_of_mem _ hp))
    refine ⟨z, List.mem_cons_of_mem _ hzmem, ?_⟩
    rw [joinNl_cons_cons, List.getLast?_append_of_ne_nil _
      (joinNl_ne_nil (by simp) (fun p hp => h p (List.mem_cons_of_mem _ hp)))]
    exact hzjoin

theorem cleanB_joinNl {ps : List (List Char)} (hne : ps ≠ [])
    (hc : ∀ p ∈ ps, cleanB p = true) : cleanB (joinNl ps) = true := by
  rcases List.exists_cons_of_ne_nil hne with ⟨x, r, rfl⟩
  rcases cleanB_iff.mp (hc x (List.mem_cons_self _ _)) with ⟨c, _, hxh, _, hcns, _⟩
  have hnil : ∀ p ∈ x :: r, p ≠ [] := fun p hp => cleanB_ne_nil (hc p hp)
  obtain ⟨z, hzmem, h2⟩ := getLast?_joinNl x r hnil
  rcases cleanB_iff.mp (hc z hzmem) with ⟨_, d, _, hzl, _, hdns⟩
  have h1 : (joinNl (x :: r)).head? = x.head? :=
    head?_joinNl x r (hnil x (List.mem_cons_self _ _))
  refine cleanB_iff.mpr ⟨c, d, ?_, ?_, hcns, hdns⟩
  · rw [h1]; exact hxh
  · rw [h2]; exact hzl

theorem splitPar_joinNl : (ps : List (List Char)) → ps ≠ [] →
    (∀ p ∈ ps, cleanB p = true ∧ hasNl2 p = false) → splitPar (joinNl ps) = ps
  | [x], _, h => by
    rw [show joinNl [x] = x from rfl]
    exact splitPar_of_noNl2 x (h x (List.mem_singleton_self x)).2
  | x :: y :: r, _, h => by
    have hx := h x (List.mem_cons_self _ _)
    have hlast : x.getLast? ≠ some '\n' := by
      rcases cleanB_iff.mp hx.1 with ⟨_, d, _, hxl, _, hdns⟩
      rw [hxl]
      intro hcon
      exact ne_nl_of_not_space hdns (by simpa using hcon)
    rw [joinNl_cons_cons, List.append_assoc,
      show nl2 ++ joinNl (y :: r) = '\n' :: '\n' :: joinNl (y :: r) from rfl,
      splitPar_append_nl2 x (joinNl (y :: r)) hx.2 hlast,
      splitPar_joinNl (y :: r) (by simp) (fun p hp => h p (List.mem_cons_of_mem _ hp))]

theorem paragraphsOf_joinNl {ps : List (List Char)}
    (h : ∀ p ∈ ps, cleanB p = true ∧ hasNl2 p = false) :
    paragraphsOf (joinNl ps) = ps := by
  cases hne : ps with
  | nil => decide
  | cons x r =>
    rw [← hne]
    unfold paragraphsOf
    rw [splitPar_joinNl ps (by rw [hne]; simp) h]
    have hmap : ps.map pstrip = ps := by
      conv_rhs => rw [← List.map_id ps]
      exact List.map_congr_left (fun p hp => pstrip_eq_self (h p hp).1)
    rw [hmap]
    apply List.filter_eq_self.mpr
    intro p hp
    have : p ≠ [] := cleanB_ne_nil (h p hp).1
    cases p with
    | nil => exact absurd rfl this
    | cons a b => rfl

/-! Structure of the running buffer `current_text` and of joined outputs. -/

theorem joinNl_append : (g qs : List (List Char)) → g ≠ [] → qs ≠ [] →
    joinNl (g ++ qs) = joinNl g ++ nl2 ++ joinNl qs
  | [x], qs, _, hqs => by
    rcases List.exists_cons_of_ne_nil hqs with ⟨y, r, rfl⟩
    rfl
  | x :: y :: g', qs, _, hqs => by
    have ih := joinNl_append (y :: g') qs (by simp) hqs
    simp only [List.cons_append] at ih ⊢
    rw [joinNl_cons_cons, joinNl_cons_cons x y g', ih]
    simp [List.append_assoc]

theorem joinNl_flatten : (gs : List (List (List Char))) → (∀ g ∈ gs, g ≠ []) →
    joinNl (gs.map joinNl) = joinNl gs.flatten
  | [], _ => rfl
  | [g], _ => by simp [joinNl]
  | g :: g' :: r, h => by
    have hg : g ≠ [] := h g (List.mem_cons_self _ _)
    have hrest : ∀ x ∈ g' :: r, x ≠ [] := fun x hx => h x (List.mem_cons_of_mem _ hx)
    have ih := joinNl_flatten (g' :: r) hrest
    have hfl : (g' :: r).flatten ≠ [] := by
      have hg' : g' ≠ [] := hrest g' (List.mem_cons_self _ _)
      rcases List.exists_cons_of_ne_nil hg' with ⟨a, b, rfl⟩
      simp
    rw [show List.map joinNl (g :: g' :: r) = joinNl g :: joinNl g' :: List.map joinNl r from rfl,
      joinNl_cons_cons,
      show joinNl g' :: List.map joinNl r = List.map joinNl (g' :: r) from rfl,
      ih,
      show (g :: g' :: r).flatten = g ++ (g' :: r).flatten from rfl,
      joinNl_append g (g' :: r).flatten hg hfl]

theorem joinBuf_nil : joinBuf [] = [] := rfl

theorem joinBuf_cons (p : List Char) (ps : List (List Char)) :
    joinBuf (p :: ps) = p ++ nl2 ++ joinBuf ps := by
  simp [joinBuf, List.append_assoc]

theorem joinBuf_single (p : List Char) : joinBuf [p] = p ++ nl2 := by
  simp [joinBuf]

theorem joinBuf_append_single (ps : List (List Char)) (p : List Char) :
    joinBuf (ps ++ [p]) = joinBuf ps ++ p ++ nl2 := by
  simp [joinBuf, List.append_assoc]

theorem joinBuf_eq_joinNl : (ps : List (List Char)) → ps ≠ [] →
    joinBuf ps = joinNl ps ++ nl2
  | [x], _ => by simp [joinBuf, joinNl]
  | x :: y :: r, _ => by
    rw [joinBuf_cons, joinNl_cons_cons, joinBuf_eq_joinNl (y :: r) (by simp)]
    simp [List.append_assoc]

theorem joinBuf_ne_nil {ps : List (List Char)} (h : ps ≠ []) : joinBuf ps ≠ [] := by
  rcases List.exists_cons_of_ne_nil h with ⟨x, r, rfl⟩
  rw [joinBuf_cons]
  simp [nl2]

theorem joinBuf_eq_nil_iff {ps : List (List Char)} : joinBuf ps = [] ↔ ps = [] := by
  constructor
  · intro h
    by_contra hne
    exact joinBuf_ne_nil hne h
  · intro h; rw [h]; rfl

theorem length_joinBuf {ps : List (List Char)} (h : ps ≠ []) :
    (joinBuf ps).length = (joinNl ps).length + 2 := by
  rw [joinBuf_eq_joinNl ps h, List.length_append]
  rfl

theorem head?_append_left {q : List Char} (x : List Char) (h : q ≠ []) :
    (q ++ x).head? = q.head? := by
  rcases List.exists_cons_of_ne_nil h with ⟨a, b, rfl⟩
  rfl

theorem pstrip_append_nl2 {q : List Char} (h : cleanB q = true) :
    pstrip (q ++ nl2) = q := by
  rcases cleanB_iff.mp h with ⟨c, d, hh, hl, hc, hd⟩
  have hq : q ≠ [] := cleanB_ne_nil h
  have hdw : List.dropWhile isPySpace (q ++ nl2) = q ++ nl2 :=
    dropWhile_eq_self_of_head (by rw [head?_append_left _ hq]; exact hh) hc
  rw [pstrip_eq_rdrop, hdw,
    show q ++ nl2 = (q ++ ['\n']) ++ ['\n'] by simp [nl2],
    List.rdropWhile_concat_pos _ _ '\n' (by rfl),
    List.rdropWhile_concat_pos _ _ '\n' (by rfl),
    rdropWhile_eq_self_of_getLast hl hd]

theorem pstrip_joinBuf {ps : List (List Char)} (hne : ps ≠ [])
    (hc : ∀ p ∈ ps, cleanB p = true) : pstrip (joinBuf ps) = joinNl ps := by
  rw [joinBuf_eq_joinNl ps hne]
  exact pstrip_append_nl2 (cleanB_joinNl hne hc)

theorem length_joinNl_append_single {ps : List (List Char)} (p : List Char)
    (hne : ps ≠ []) :
    (joinNl (ps ++ [p])).length = (joinBuf ps).length + p.length := by
  rcases List.exists_cons_of_ne_nil hne with ⟨x, r, rfl⟩
  rw [joinNl_append (x :: r) [p] (by simp) (by simp),
    show joinNl [p] = p from rfl, joinBuf_eq_joinNl (x :: r) (by simp)]
  simp only [List.length_append]

/-! Every entry of the paragraph list is clean and separator-free, and a
clean text has at least one paragraph. -/

theorem paragraphsOf_mem {t p : List Char} (h : p ∈ paragraphsOf t) :
    cleanB p = true ∧ hasNl2 p = false := by
  unfold paragraphsOf at h
  have h' := List.mem_filter.mp h
  rcases List.mem_map.mp h'.1 with ⟨q, hq, rfl⟩
  have hne : pstrip q ≠ [] := by
    intro he
    rw [he] at h'
    simp at h'
  refine ⟨cleanB_pstrip hne, hasNl2_pstrip (splitPar_noNl2 t q hq)⟩

theorem paragraphsOf_ne_nil {t : List Char} (h : cleanB t = true) :
    paragraphsOf t ≠ [] := by
  rcases cleanB_iff.mp h with ⟨c, _, hh, _, hc, _⟩
  cases hsp : splitPar t with
  | nil => exact absurd hsp (splitPar_ne_nil t)
  | cons p ps =>
    have hph : p.head? = some c := by
      rcases splitPar_first_head hsp with h1 | h1
      · rw [h1]; exact hh
      · rw [h1.2] at hh
        exact absurd (by simpa using hh.symm) (ne_nl_of_not_space hc)
    rcases (by cases p with
      | nil => simp at hph
      | cons a b =>
        exact ⟨b, by simpa using hph⟩ :
        ∃ b, p = c :: b) with ⟨b, rfl⟩
    have hps : pstrip (c :: b) ≠ [] := by
      rw [pstrip_eq_rdrop,
        dropWhile_eq_self_of_head (s := c :: b) (c := c) rfl hc]
      intro he
      have := (List.rdropWhile_eq_nil_iff).mp he c (List.mem_cons_self _ _)
      rw [this] at hc
      exact absurd hc (by simp)
    have hmem : pstrip (c :: b) ∈ paragraphsOf t := by
      unfold paragraphsOf
      apply List.mem_filter.mpr
      refine ⟨List.mem_map.mpr ⟨c :: b, by rw [hsp]; exact List.mem_cons_self _ _, rfl⟩, ?_⟩
      cases hp2 : pstrip (c :: b) with
      | nil => exact absurd hp2 hps
      | cons u v => rfl
    exact List.ne_nil_of_mem hmem

/-! The three master lemmas about the `_chunk_text` loop: the produced
section texts join paragraph groups that partition the input paragraph list
in order; section numbers count up from the starting count; and every
section respects the size budget except oversized singleton paragraphs. -/

theorem chunkLoop_texts (maxLen : Nat) :
    (L : List (List Char)) → (ps : List (List Char)) → (n : Nat) →
    (∀ p ∈ L, cleanB p = true ∧ hasNl2 p = false) →
    (∀ p ∈ ps, cleanB p = true ∧ hasNl2 p = false) →
    ∃ groups : List (List (List Char)),
      (chunkLoop maxLen L (joinBuf ps) n).map (fun s => s.text) = groups.map joinNl ∧
      groups.flatten = ps ++ L ∧
      (∀ g ∈ groups, g ≠ [] ∧ ∀ p ∈ g, cleanB p = true ∧ hasNl2 p = false)
  | [], ps, n, _, hps => by
    rw [chunkLoop]
    by_cases hp : ps = []
    · subst hp
      rw [joinBuf_nil, if_neg (by simp [pstrip_nil])]
      exact ⟨[], by simp, by simp, by simp⟩
    · have hstrip : pstrip (joinBuf ps) = joinNl ps :=
        pstrip_joinBuf hp (fun p h => (hps p h).1)
      rw [if_pos (by
        rw [hstrip]
        exact joinNl_ne_nil hp (fun p h => cleanB_ne_nil (hps p h).1))]
      refine ⟨[ps], by simp [hstrip], by simp, ?_⟩
      intro g hg
      rw [List.mem_singleton.mp hg]
      exact ⟨hp, hps⟩
  | para :: rest, ps, n, hL, hps => by
    rw [chunkLoop]
    have hpara := hL para (List.mem_cons_self _ _)
    have hrest : ∀ p ∈ rest, cleanB p = true ∧ hasNl2 p = false :=
      fun p h => hL p (List.mem_cons_of_mem _ h)
    by_cases hcond : maxLen < (joinBuf ps).length + para.length ∧ joinBuf ps ≠ []
    · rw [if_pos hcond]
      have hp : ps ≠ [] := fun he => hcond.2 (by rw [he]; rfl)
      have hstrip : pstrip (joinBuf ps) = joinNl ps :=
        pstrip_joinBuf hp (fun p h => (hps p h).1)
      obtain ⟨groups, hmap, hflat, hgood⟩ :=
        chunkLoop_texts maxLen rest [para] (n + 1) hrest (by
          intro p h
          rw [List.mem_singleton.mp h]
          exact hpara)
      rw [← joinBuf_single para]
      refine ⟨ps :: groups, ?_, ?_, ?_⟩
      · simp only [List.map_cons]
        rw [hmap, hstrip]
      · rw [show (ps :: groups).flatten = ps ++ groups.flatten from rfl, hflat]
        simp
      · intro g hg
        rcases List.mem_cons.mp hg with h | h
        · rw [h]; exact ⟨hp, hps⟩
        · exact hgood g h
    · rw [if_neg hcond]
      have hall : ∀ p ∈ ps ++ [para], cleanB p = true ∧ hasNl2 p = false := by
        intro p h
        rcases List.mem_append.mp h with h | h
        · exact hps p h
        · rw [List.mem_singleton.mp h]; exact hpara
      obtain ⟨groups, hmap, hflat, hgood⟩ :=
        chunkLoop_texts maxLen rest (ps ++ [para]) n hrest hall
      rw [show joinBuf ps ++ para ++ nl2 = joinBuf (ps ++ [para]) from
        (joinBuf_append_single ps para).symm]
      refine ⟨groups, hmap, ?_, hgood⟩
      rw [hflat]
      simp

theorem chunkLoop_numbers (maxLen : Nat) :
    (L : List (List Char)) → (cur : List Char) → (n : Nat) →
    (chunkLoop maxLen L cur n).map (fun s => s.section_number) =
      List.range' n (chunkLoop maxLen L cur n).length
  | [], cur, n => by
    rw [chunkLoop]
    by_cases h : pstrip cur ≠ []
    · rw [if_pos h]; rfl
    · rw [if_neg h]; rfl
  | para :: rest, cur, n => by
    rw [chunkLoop]
    by_cases h : maxLen < cur.length + para.length ∧ cur ≠ []
    · rw [if_pos h]
      simp only [List.map_cons, List.length_cons]
      rw [chunkLoop_numbers maxLen rest (para ++ nl2) (n + 1), List.range'_succ]
    · rw [if_neg h]
      exact chunkLoop_numbers maxLen rest (cur ++ para ++ nl2) n

theorem chunkLoop_size (maxLen : Nat) :
    (L : List (List Char)) → (ps : List (List Char)) → (n : Nat) →
    (∀ p ∈ L, cleanB p = true ∧ hasNl2 p = false) →
    (∀ p ∈ ps, cleanB p = true ∧ hasNl2 p = false) →
    (ps = [] ∨ (∃ p, ps = [p]) ∨ (joinNl ps).length ≤ maxLen) →
    ∀ s ∈ chunkLoop maxLen L (joinBuf ps) n,
      s.text.length ≤ maxLen ∨ (s.text ∈ ps ++ L ∧ maxLen < s.text.length)
  | [], ps, n, _, hps, hbuf => by
    rw [chunkLoop]
    by_cases hstripne : pstrip (joinBuf ps) ≠ []
    · rw [if_pos hstripne]
      intro s hs
      rw [List.mem_singleton.mp hs]
      have hp : ps ≠ [] := by
        intro he
        rw [he, joinBuf_nil, pstrip_nil] at hstripne
        exact hstripne rfl
      have hstrip : pstrip (joinBuf ps) = joinNl ps :=
        pstrip_joinBuf hp (fun p h => (hps p h).1)
      rcases hbuf with he | ⟨p, hpp⟩ | hle
      · exact absurd he hp
      · subst hpp
        by_cases hlen : p.length ≤ maxLen
        · left
          rw [hstrip, show joinNl [p] = p from rfl]
          exact hlen
        · right
          rw [hstrip, show joinNl [p] = p from rfl]
          refine ⟨List.mem_append_left _ (List.mem_singleton_self p), ?_⟩
          show maxLen < p.length
          omega
      · left
        rw [hstrip]
        exact hle
    · rw [if_neg hstripne]
      intro s hs
      simp at hs
  | para :: rest, ps, n, hL, hps, hbuf => by
    rw [chunkLoop]
    have hpara := hL para (List.mem_cons_self _ _)
    have hrest : ∀ p ∈ rest, cleanB p = true ∧ hasNl2 p = false :=
      fun p h => hL p (List.mem_cons_of_mem _ h)
    by_cases hcond : maxLen < (joinBuf ps).length + para.length ∧ joinBuf ps ≠ []
    · rw [if_pos hcond]
      have hp : ps ≠ [] := fun he => hcond.2 (by rw [he]; rfl)
      have hstrip : pstrip (joinBuf ps) = joinNl ps :=
        pstrip_joinBuf hp (fun p h => (hps p h).1)
      intro s hs
      rcases List.mem_cons.mp hs with hhd | htl
      · subst hhd
        rcases hbuf with he | ⟨p, hpp⟩ | hle
        · exact absurd he hp
        · subst hpp
          by_cases hlen : p.length ≤ maxLen
          · left
            rw [hstrip, show joinNl [p] = p from rfl]
            exact hlen
          · right
            rw [hstrip, show joinNl [p] = p from rfl]
            refine ⟨List.mem_append_left _ (List.mem_singleton_self p), ?_⟩
            show maxLen < p.length
            omega
        · left
          rw [hstrip]
          exact hle
      · rw [← joinBuf_single para] at htl
        have hrec := chunkLoop_size maxLen rest [para] (n + 1) hrest
          (by
            intro p h
            rw [List.mem_singleton.mp h]
            exact hpara)
          (Or.inr (Or.inl ⟨para, rfl⟩)) s htl
        rcases hrec with h1 | ⟨hmem, hgt⟩
        · exact Or.inl h1
        · refine Or.inr ⟨?_, hgt⟩
          apply List.mem_append_right
          simpa using hmem
    · rw [if_neg hcond]
      intro s hs
      rw [show joinBuf ps ++ para ++ nl2 = joinBuf (ps ++ [para]) from
        (joinBuf_append_single ps para).symm] at hs
      have hall : ∀ p ∈ ps ++ [para], cleanB p = true ∧ hasNl2 p = false := by
        intro p h
        rcases List.mem_append.mp h with h | h
        · exact hps p h
        · rw [List.mem_singleton.mp h]; exact hpara
      have hbuf' : ps ++ [para] = [] ∨ (∃ p, ps ++ [para] = [p]) ∨
          (joinNl (ps ++ [para])).length ≤ maxLen := by
        by_cases hp : ps = []
        · subst hp
          exact Or.inr (Or.inl ⟨para, rfl⟩)
        · have hlen : (joinBuf ps).length + para.length ≤ maxLen := by
            by_contra hgt
            exact hcond ⟨by omega, joinBuf_ne_nil hp⟩
          refine Or.inr (Or.inr ?_)
          rw [length_joinNl_append_single para hp]
          exact hlen
      have hrec := chunkLoop_size maxLen rest (ps ++ [para]) n hrest hall hbuf' s hs
      rcases hrec with h1 | ⟨hmem, hgt⟩
      · exact Or.inl h1
      · refine Or.inr ⟨?_, hgt⟩
        rw [show ps ++ para :: rest = (ps ++ [para]) ++ rest by simp]
        exact hmem

/-! Claim theorems about the chunker. -/

/-- C1: for every input text and every `max_chars`, every section returned
by the chunker has text length at most `max_chars`, or else that section is
exactly one trimmed paragraph of the input whose own length exceeds
`max_chars` (an oversized single-paragraph section is never split
further). -/
theorem chunk_size_invariant (text : List Char) (maxLen : Nat) (s : DocSection)
    (hs : s ∈ create_sections text maxLen) :
    s.text.length ≤ maxLen ∨
      (s.text ∈ paragraphsOf (pstrip text) ∧ maxLen < s.text.length) := by
  simp only [create_sections] at hs
  by_cases h0 : pstrip text = []
  · rw [if_pos h0] at hs
    simp at hs
  · rw [if_neg h0] at hs
    by_cases h1 : (pstrip text).length ≤ maxLen
    · rw [if_pos h1] at hs
      left
      rw [List.mem_singleton.mp hs]
      exact h1
    · rw [if_neg h1] at hs
      exact chunkLoop_size maxLen (paragraphsOf (pstrip text)) [] 0
        (fun p hp => paragraphsOf_mem hp) (by intro p hp; simp at hp)
        (Or.inl rfl) s hs

/-- Witness for C1 at a concrete oversized single-paragraph input. -/
theorem chunk_size_invariant_witness :
    (⟨s2l "aaaaaaaaaaaaaaaaaaaa", s2l "Document Section 1", none, 0⟩ : DocSection) ∈
        create_sections (s2l "aaaaaaaaaaaaaaaaaaaa\n\nbb") 10 ∧
      ((⟨s2l "aaaaaaaaaaaaaaaaaaaa", s2l "Document Section 1", none, 0⟩ : DocSection).text.length ≤ 10 ∨
        ((⟨s2l "aaaaaaaaaaaaaaaaaaaa", s2l "Document Section 1", none, 0⟩ : DocSection).text ∈
            paragraphsOf (pstrip (s2l "aaaaaaaaaaaaaaaaaaaa\n\nbb")) ∧
          10 < (⟨s2l "aaaaaaaaaaaaaaaaaaaa", s2l "Document Section 1", none, 0⟩ : DocSection).text.length)) :=
  ⟨by decide,
    chunk_size_invariant (s2l "aaaaaaaaaaaaaaaaaaaa\n\nbb") 10
      ⟨s2l "aaaaaaaaaaaaaaaaaaaa", s2l "Document Section 1", none, 0⟩ (by decide)⟩

/-- C2: joining the returned section texts with the blank-line separator
reconstructs the original trimmed text up to paragraph-boundary whitespace
normalization (both sides have the same trimmed-paragraph decomposition),
and the `section_number` values are exactly `0..n-1` in document order. -/
theorem coverage_order_invariant (text : List Char) (maxLen : Nat) :
    paragraphsOf (joinNl ((create_sections text maxLen).map (fun s => s.text))) =
        paragraphsOf (pstrip text) ∧
      (create_sections text maxLen).map (fun s => s.section_number) =
        List.range (create_sections text maxLen).length := by
  constructor
  · simp only [create_sections]
    by_cases h0 : pstrip text = []
    · rw [if_pos h0, h0]
      rfl
    · rw [if_neg h0]
      by_cases h1 : (pstrip text).length ≤ maxLen
      · rw [if_pos h1]
        rfl
      · rw [if_neg h1]
        simp only [chunk_text]
        obtain ⟨groups, hmap, hflat, hgood⟩ :=
          chunkLoop_texts maxLen (paragraphsOf (pstrip text)) [] 0
            (fun p hp => paragraphsOf_mem hp) (by intro p hp; simp at hp)
        rw [joinBuf_nil] at hmap
        rw [hmap, joinNl_flatten groups (fun g hg => (hgood g hg).1), hflat]
        simp only [List.nil_append]
        exact paragraphsOf_joinNl (fun p hp => paragraphsOf_mem hp)
  · simp only [create_sections]
    by_cases h0 : pstrip text = []
    · rw [if_pos h0]
      rfl
    · rw [if_neg h0]
      by_cases h1 : (pstrip text).length ≤ maxLen
      · rw [if_pos h1]
        rfl
      · rw [if_neg h1]
        simp only [chunk_text]
        rw [List.range_eq_range']
        exact chunkLoop_numbers maxLen (paragraphsOf (pstrip text)) [] 0

/-- Counterexample to C7 as stated: the empty text has length at most
`max_chars` but yields zero sections, not exactly one. -/
theorem single_section_shortcut_counterexample :
    (s2l "").length ≤ 6000 ∧ create_sections (s2l "") 6000 = [] ∧
      (create_sections (s2l "") 6000).length ≠ 1 := by decide

/-- C7 (amended): for every text that is nonempty after trimming, if
`len(text) ≤ max_chars` then the chunker returns exactly one section, with
the trimmed text, heading `"Full Document"` and index 0. -/
theorem single_section_shortcut (text : List Char) (maxLen : Nat)
    (hne : pstrip text ≠ []) (hlen : text.length ≤ maxLen) :
    create_sections text maxLen =
      [⟨pstrip text, s2l "Full Document", none, 0⟩] := by
  simp only [create_sections]
  rw [if_neg hne, if_pos (le_trans (pstrip_length_le text) hlen)]

/-- Witness for the amended C7 at a concrete short text. -/
theorem single_section_shortcut_witness :
    pstrip (s2l "abc") ≠ [] ∧ (s2l "abc").length ≤ 10 ∧
      create_sections (s2l "abc") 10 =
        [⟨pstrip (s2l "abc"), s2l "Full Document", none, 0⟩] :=
  ⟨by decide, by decide,
    single_section_shortcut (s2l "abc") 10 (by decide) (by decide)⟩

/-- C8: a text that is empty after trimming yields zero sections, and this
is the only situation in which the chunker returns zero sections — the
empty-input condition is surfaced to callers as an empty section list, not a
hard failure. -/
theorem empty_input_zero_sections (text : List Char) (maxLen : Nat) :
    (pstrip text = [] → create_sections text maxLen = []) ∧
      (pstrip text ≠ [] → create_sections text maxLen ≠ []) := by
  constructor
  · intro h
    simp only [create_sections]
    rw [if_pos h]
  · intro h
    simp only [create_sections]
    rw [if_neg h]
    by_cases h1 : (pstrip text).length ≤ maxLen
    · rw [if_pos h1]
      simp
    · rw [if_neg h1]
      simp only [chunk_text]
      intro hcon
      obtain ⟨groups, hmap, hflat, _⟩ :=
        chunkLoop_texts maxLen (paragraphsOf (pstrip text)) [] 0
          (fun p hp => paragraphsOf_mem hp) (by intro p hp; simp at hp)
      rw [joinBuf_nil] at hmap
      rw [hcon] at hmap
      have hg : groups = [] := by
        cases groups with
        | nil => rfl
        | cons g gs => simp at hmap
      rw [hg] at hflat
      have hL : paragraphsOf (pstrip text) = [] := by simpa using hflat.symm
      exact paragraphsOf_ne_nil (cleanB_pstrip h) hL

/-- Witness for C8 at concrete whitespace-only and nonempty texts. -/
theorem empty_input_zero_sections_witness :
    create_sections (s2l "   ") 50 = [] ∧ create_sections (s2l "ab") 50 ≠ [] :=
  ⟨(empty_input_zero_sections (s2l "   ") 50).1 (by decide),
    (empty_input_zero_sections (s2l "ab") 50).2 (by decide)⟩

/-! The orchestrator's section loop with a total gateway. -/

theorem runSections_spec (gw : List Char → List Char) :
    (secs : List DocSection) →
    runSections gw secs =
      (secs.map (fun s => gw (create_plain_english_prompt s)),
       secs.map (fun s => gw (create_summary_prompt s)),
       (secs.map (fun s =>
         [(⟨create_plain_english_prompt s, none, 1000⟩ : GatewayCall),
          ⟨create_summary_prompt s, none, 1000⟩])).flatten)
  | [] => rfl
  | s :: rest => by
    simp only [runSections, runSections_spec gw rest, List.map_cons, List.flatten_cons]
    rfl

/-- C3: with an always-succeeding gateway, the orchestrator issues exactly
two gateway calls per section — the plain-English prompt then the summary
prompt, in section order, each with the default `max_tokens` of 1000 and the
default model — and returns the two outputs as the per-section completions
joined in section order with a blank line; on the three-paragraph scenario
document with the `[PLAIN]`/`[SUMMARY]` stub gateway, the outputs are the
three stub answers joined by blank lines. -/
theorem orchestrator_calls_and_join :
    (∀ (gw : List Char → List Char) (text : List Char) (maxLen : Nat),
      (processDocument gw text maxLen).2.2 =
          ((create_sections text maxLen).map (fun s =>
            [(⟨create_plain_english_prompt s, none, 1000⟩ : GatewayCall),
             ⟨create_summary_prompt s, none, 1000⟩])).flatten ∧
        (processDocument gw text maxLen).1 =
          joinNl ((create_sections text maxLen).map
            (fun s => gw (create_plain_english_prompt s))) ∧
        (processDocument gw text maxLen).2.1 =
          joinNl ((create_sections text maxLen).map
            (fun s => gw (create_summary_prompt s)))) ∧
      (create_sections scenTxt 15).length = 3 ∧
      (processDocument stubGw scenTxt 15).1 = s2l "[PLAIN]\n\n[PLAIN]\n\n[PLAIN]" ∧
      (processDocument stubGw scenTxt 15).2.1 = s2l "[SUMMARY]\n\n[SUMMARY]\n\n[SUMMARY]" := by
  refine ⟨?_, by decide, by decide, by decide⟩
  intro gw text maxLen
  simp only [processDocument, runSections_spec]
  exact ⟨trivial, trivial, trivial⟩

/-! The retry loop of the gateway. -/

theorem retryLoop_ok (att : Nat → Except Nat (List Char)) (base maxR k : Nat)
    (r : List Char) :
    (m : Nat) → (a : Nat) → a < k → k ≤ a + m → a + m = maxR →
    (∀ i, i < k → ∃ e, att i = Except.error e) → att k = Except.ok r →
    retryLoop att base maxR (List.range' a m) =
      (Except.ok r, (List.range' a (k - a)).map (fun i => base * 2 ^ i))
  | 0, a, ha, hk, _, _, _ => by omega
  | m + 1, a, ha, hk, hmr, herr, hok => by
    rw [List.range'_succ]
    simp only [retryLoop]
    split
    · rename_i r' heq
      have hak : a + 1 = k := by
        by_contra hne
        have halt : a + 1 < k := by omega
        obtain ⟨e, he⟩ := herr (a + 1) halt
        rw [he] at heq
        exact absurd heq (by simp)
      rw [hak, hok] at heq
      obtain rfl : r' = r := by simpa using heq.symm
      have h1 : k - a = 1 := by omega
      rw [h1]
      simp [List.range']
    · rename_i e heq
      have halt : a + 1 < k := by
        rcases Nat.lt_or_ge (a + 1) k with h | h
        · exact h
        · have hak : a + 1 = k := by omega
          rw [hak, hok] at heq
          exact absurd heq (by simp)
      have hne : ¬ a = maxR - 1 := by omega
      rw [if_neg hne]
      have ih := retryLoop_ok att base maxR k r m (a + 1) halt (by omega) (by omega) herr hok
      show ((retryLoop att base maxR (List.range' (a + 1) m)).1,
        base * 2 ^ a :: (retryLoop att base maxR (List.range' (a + 1) m)).2) =
        (Except.ok r, (List.range' a (k - a)).map (fun i => base * 2 ^ i))
      rw [ih]
      have h2 : k - a = (k - (a + 1)) + 1 := by omega
      rw [h2, List.range'_succ]
      simp

/-- C4: if the primary attempt and the first `k-1` retries fail and the next
attempt succeeds (`0 < k ≤ max_retries`), `call_llm` returns the successful
result and the back-off sleeps performed are exactly
`base_delay * 2^0, ..., base_delay * 2^(k-1)`, in increasing order; and when
the primary attempt succeeds, no sleep occurs at all. -/
theorem retry_backoff_determinism :
    (∀ (att : Nat → Except Nat (List Char)) (maxR base k : Nat) (r : List Char),
      0 < k → k ≤ maxR →
      (∀ i, i < k → ∃ e, att i = Except.error e) → att k = Except.ok r →
      call_llm att maxR base =
        (Except.ok r, (List.range k).map (fun i => base * 2 ^ i))) ∧
    (∀ (att : Nat → Except Nat (List Char)) (maxR base : Nat) (r : List Char),
      att 0 = Except.ok r → call_llm att maxR base = (Except.ok r, [])) := by
  constructor
  · intro att maxR base k r hk hkm herr hok
    obtain ⟨e0, he0⟩ := herr 0 hk
    unfold call_llm
    rw [he0]
    unfold retry_llm_call
    rw [List.range_eq_range',
      retryLoop_ok att base maxR k r maxR 0 hk (by omega) (by omega) herr hok,
      List.range_eq_range']
    simp
  · intro att maxR base r hok
    unfold call_llm
    rw [hok]

/-- Witness for C4 with a gateway failing twice then succeeding, and one
succeeding immediately. -/
theorem retry_backoff_determinism_witness :
    call_llm (fun i => if i < 2 then Except.error i else Except.ok (s2l "ok")) 3 1 =
        (Except.ok (s2l "ok"), [1, 2]) ∧
      call_llm (fun _ => Except.ok (s2l "fast")) 3 1 = (Except.ok (s2l "fast"), []) :=
  ⟨by
    have := retry_backoff_determinism.1
      (fun i => if i < 2 then Except.error i else Except.ok (s2l "ok")) 3 1 2 (s2l "ok")
      (by decide) (by decide)
      (fun i hi => ⟨i, by simp [hi]⟩) (by simp)
    simpa using this,
   retry_backoff_determinism.2 (fun _ => Except.ok (s2l "fast")) 3 1 (s2l "fast") rfl⟩

theorem retryLoop_fail (att : Nat → Except Nat (List Char)) (base maxR : Nat)
    (errf : Nat → Nat) :
    (m : Nat) → (a : Nat) → a + m = maxR → 0 < m →
    (∀ i, i ≤ maxR → att i = Except.error (errf i)) →
    retryLoop att base maxR (List.range' a m) =
      (Except.error (.underlying (errf maxR)),
       (List.range' a m).map (fun i => base * 2 ^ i))
  | 0, a, _, hm, _ => by omega
  | m + 1, a, hmr, _, hall => by
    rw [List.range'_succ]
    simp only [retryLoop, hall (a + 1) (by omega)]
    by_cases ham : a = maxR - 1
    · have hm0 : m = 0 := by omega
      have ha1 : a + 1 = maxR := by omega
      subst hm0
      rw [if_pos ham, ha1]
      simp [List.range']
    · rw [if_neg ham]
      have hm1 : 0 < m := by omega
      have ih := retryLoop_fail att base maxR errf m (a + 1) (by omega) hm1 hall
      show ((retryLoop att base maxR (List.range' (a + 1) m)).1,
        base * 2 ^ a :: (retryLoop att base maxR (List.range' (a + 1) m)).2) =
        (Except.error (.underlying (errf maxR)),
          (a :: List.range' (a + 1) m).map (fun i => base * 2 ^ i))
      rw [ih]
      simp

/-- C5: when the primary attempt and all `max_retries` retries fail,
`call_llm` fails with the error of the last attempt (wrapped as the
gateway-call error), no result is returned, and the full back-off schedule
was slept through. -/
theorem retry_exhaustion (att : Nat → Except Nat (List Char)) (maxR base : Nat)
    (errf : Nat → Nat) (hmr : 1 ≤ maxR)
    (hall : ∀ i, i ≤ maxR → att i = Except.error (errf i)) :
    call_llm att maxR base =
      (Except.error (LLMError.underlying (errf maxR)),
       (List.range maxR).map (fun i => base * 2 ^ i)) := by
  unfold call_llm
  rw [hall 0 (by omega)]
  unfold retry_llm_call
  rw [List.range_eq_range']
  exact retryLoop_fail att base maxR errf maxR 0 (by omega) (by omega) hall

/-- Witness for C5 with an always-failing gateway and the default settings
(`max_retries = 3`, `base_delay = 1`): error of attempt 3 and sleeps
1, 2, 4. -/
theorem retry_exhaustion_witness :
    1 ≤ 3 ∧ call_llm (fun i => Except.error i) 3 1 =
      (Except.error (LLMError.underlying 3), [1, 2, 4]) :=
  ⟨by decide, by
    have := retry_exhaustion (fun i => Except.error i) 3 1 (fun i => i)
      (by decide) (fun i _ => rfl)
    simpa using this⟩

/-! The per-file loop of the batch processor. -/

theorem processBatch_eq_map (gw : List Char → Except Nat (List Char)) (maxLen : Nat) :
    (docs : List (List Char)) →
    processBatch gw maxLen docs =
      docs.map (fun d => (processDocE gw d maxLen).toOption)
  | [] => rfl
  | d :: rest => by
    rw [processBatch, processBatch_eq_map gw maxLen rest]
    simp only [List.map_cons]
    cases h : processDocE gw d maxLen <;> simp [h, Except.toOption]

theorem processBatch_length (gw : List Char → Except Nat (List Char))
    (maxLen : Nat) (docs : List (List Char)) :
    (processBatch gw maxLen docs).length = docs.length := by
  rw [processBatch_eq_map]
  simp

theorem runSectionsE_error (gw : List Char → Except Nat (List Char)) :
    (secs : List DocSection) → ∀ s ∈ secs,
    ((∃ e, gw (create_plain_english_prompt s) = Except.error e) ∨
     (∃ e, gw (create_summary_prompt s) = Except.error e)) →
    ∃ e, runSectionsE gw secs = Except.error e
  | [] => by intro s hs; simp at hs
  | s0 :: rest => by
    intro s hs hfail
    rw [runSectionsE]
    cases hp : gw (create_plain_english_prompt s0) with
    | error e => exact ⟨e, rfl⟩
    | ok pr =>
      cases hq : gw (create_summary_prompt s0) with
      | error e => exact ⟨e, rfl⟩
      | ok sr =>
        rcases List.mem_cons.mp hs with rfl | htl
        · rcases hfail with ⟨e, he⟩ | ⟨e, he⟩
          · rw [hp] at he; exact absurd he (by simp)
          · rw [hq] at he; exact absurd he (by simp)
        · obtain ⟨e, he⟩ := runSectionsE_error gw rest s htl hfail
          rw [he]
          exact ⟨e, rfl⟩

theorem processDocE_error (gw : List Char → Except Nat (List Char))
    (text : List Char) (maxLen : Nat) (s : DocSection)
    (hs : s ∈ create_sections text maxLen)
    (hfail : (∃ e, gw (create_plain_english_prompt s) = Except.error e) ∨
             (∃ e, gw (create_summary_prompt s) = Except.error e)) :
    ∃ e, processDocE gw text maxLen = Except.error e := by
  obtain ⟨e, he⟩ := runSectionsE_error gw (create_sections text maxLen) s hs hfail
  unfold processDocE
  rw [he]
  exact ⟨e, rfl⟩

/-- C6: if some section of document `i` has a plain-English or summary
completion that fails (after the gateway's retries are exhausted), then that
document produces no output at all — nothing partial is written — while
every document in the batch, including the siblings of the failed one, is
still processed to exactly the outcome its own gateway calls determine. -/
theorem per_document_error_isolation (gw : List Char → Except Nat (List Char))
    (maxLen : Nat) (docs : List (List Char)) (i : Nat) (hi : i < docs.length)
    (s : DocSection) (hs : s ∈ create_sections (docs.get ⟨i, hi⟩) maxLen)
    (hfail : (∃ e, gw (create_plain_english_prompt s) = Except.error e) ∨
             (∃ e, gw (create_summary_prompt s) = Except.error e)) :
    (processBatch gw maxLen docs).get
        ⟨i, by rw [processBatch_length]; exact hi⟩ = none ∧
      processBatch gw maxLen docs =
        docs.map (fun d => (processDocE gw d maxLen).toOption) := by
  refine ⟨?_, processBatch_eq_map gw maxLen docs⟩
  obtain ⟨e, he⟩ := processDocE_error gw (docs.get ⟨i, hi⟩) maxLen s hs hfail
  have h2 : (processBatch gw maxLen docs).get
      ⟨i, by rw [processBatch_length]; exact hi⟩ =
      (processDocE gw (docs.get ⟨i, hi⟩) maxLen).toOption := by
    simp [processBatch_eq_map, List.get_eq_getElem, List.getElem_map]
  rw [h2, he]
  rfl

/-- Witness for C6: an always-failing gateway on a two-document batch; the
first document yields no output while the second is still processed on its
own terms. -/
theorem per_document_error_isolation_witness :
    (⟨s2l "Hello world", s2l "Full Document", none, 0⟩ : DocSection) ∈
        create_sections (s2l "Hello world") 100 ∧
      (processBatch (fun _ => Except.error 5) 100
          [s2l "Hello world", s2l "Bye"]).get ⟨0, by decide⟩ = none ∧
      processBatch (fun _ => Except.error 5) 100 [s2l "Hello world", s2l "Bye"] =
        [s2l "Hello world", s2l "Bye"].map
          (fun d => (processDocE (fun _ => Except.error 5) d 100).toOption) := by
  refine ⟨by decide, ?_⟩
  have h := per_document_error_isolation (fun _ => Except.error 5) 100
    [s2l "Hello world", s2l "Bye"] 0 (by decide)
    ⟨s2l "Hello world", s2l "Full Document", none, 0⟩ (by decide)
    (Or.inl ⟨5, rfl⟩)
  exact h

/-! Token estimation and output validation. -/

/-- Counterexample to C9 as stated: on a 5-character text the code computes
`5 // 4 = 1`, not `ceil(5 / 4) = 2`. -/
theorem token_estimate_counterexample :
    estimate_tokens (s2l "aaaaa") ≠ ((s2l "aaaaa").length + 3) / 4 := by decide

/-- C9 (amended): `estimate_tokens` is the floor of `len(text) / 4` — the
unique `n` with `4n ≤ len(text) < 4n + 4` — and in particular a
400-character text is estimated at 100 tokens. -/
theorem token_estimate_floor :
    (∀ t : List Char, 4 * estimate_tokens t ≤ t.length ∧
        t.length < 4 * estimate_tokens t + 4) ∧
      estimate_tokens (List.replicate 400 'a') = 100 := by
  constructor
  · intro t
    unfold estimate_tokens
    omega
  · show (List.replicate 400 'a').length / 4 = 100
    rw [List.length_replicate]

/-- C10: `validate_output` flags the output invalid exactly when it is
shorter than 50 characters (with the corresponding error message); the
`[TRUNCATED]`/`[INCOMPLETE]` markers only add a warning and never affect
validity; and the section-list argument has no effect on the result. -/
theorem validate_output_spec (secs : List DocSection) (out : List Char) :
    ((validate_output secs out).is_valid = false ↔ out.length < 50) ∧
      (validate_output secs out).errors =
        (if out.length < 50 then [s2l "Output suspiciously short"] else []) ∧
      (validate_output secs out).warnings =
        (if hasSub (s2l "[TRUNCATED]") out || hasSub (s2l "[INCOMPLETE]") out then
          [s2l "Output may be truncated"] else []) ∧
      ∀ secs' : List DocSection, validate_output secs' out = validate_output secs out := by
  unfold validate_output
  by_cases hw : (hasSub (s2l "[TRUNCATED]") out || hasSub (s2l "[INCOMPLETE]") out) = true
  <;> by_cases hl : out.length < 50
  <;> simp [hw, hl]

end LegalProc
